import Mathlib

/-!
# Verification of the logft resolution-and-audit engine

This file gives a shallow embedding of the core of
`experiments/08_ingest_logft.py`: the record normalizer (column mapping,
branching-ratio normalization), the override/candidate indexes, the
resolution engine (`_mode_match_score`, `choose_logft_for_row`), and the
merge/audit loop of `main`, together with proofs of the behavioural
claims about them.

Modelling conventions:
* Python floats carrying logft / branching values are modelled as `ℚ`;
  a missing (NaN) value is `Option.none`.
* Pandas frames are modelled as Lean lists of typed records, kept in the
  frame's row order.  A boolean-mask selection is a `List.filter`.
* `DataFrame.sort_values` is modelled by `stableSort` below.  Pandas'
  multi-column sorts (the branching tie-break of line 303 and the audit
  sort of line 425) are stable lexicographic sorts, so the model is
  exact there; the single-column fallback sort of line 314 uses the
  default quicksort, which is not stable, so on that path only
  properties of the sort *key* (true under any ordering by the key) are
  proved — no theorem below relies on tie order for that sort.
* Python's `str.strip` / `str.lower` / substring `in` are modelled by
  executable character-list functions (`pyStrip`, `pyLower`, `pyIn`).
-/

/-- Characters removed by Python `str.strip()` (whitespace). -/
def trimChars (l : List Char) : List Char :=
  ((l.dropWhile Char.isWhitespace).reverse.dropWhile Char.isWhitespace).reverse

/-- Model of Python `s.strip()`. -/
def pyStrip (s : String) : String := ⟨trimChars s.data⟩

/-- Model of Python `s.lower()` (per-character lowering). -/
def pyLower (s : String) : String := ⟨s.data.map Char.toLower⟩

/-- `listStartsWith p l` iff `p` is a prefix of `l`. -/
def listStartsWith : List Char → List Char → Bool
  | [], _ => true
  | _ :: _, [] => false
  | a :: as, b :: bs => a == b && listStartsWith as bs

/-- `listContainsSub p l` iff `p` occurs as a contiguous sublist of `l`. -/
def listContainsSub (p : List Char) : List Char → Bool
  | [] => listStartsWith p []
  | b :: t => listStartsWith p (b :: t) || listContainsSub p t

/-- Model of Python substring containment `b in c`. -/
def pyIn (b c : String) : Bool := listContainsSub b.data c.data

/-- Lexicographic comparison of strings (model of Python `<` on the
file paths passed to `sorted`). -/
def charsLt : List Char → List Char → Bool
  | [], [] => false
  | [], _ :: _ => true
  | _ :: _, [] => false
  | a :: as, b :: bs => decide (a < b) || (a == b && charsLt as bs)

def pathLt (s t : String) : Bool := charsLt s.data t.data

/-! ## A stable sort, modelling `DataFrame.sort_values`

`stableSort le l` is an insertion sort; it is stable: elements whose
keys tie keep their relative order from `l`. -/

def ordInsert (le : α → α → Bool) (a : α) : List α → List α
  | [] => [a]
  | b :: l => if le a b then a :: b :: l else b :: ordInsert le a l

def stableSort (le : α → α → Bool) : List α → List α
  | [] => []
  | a :: l => ordInsert le a (stableSort le l)

theorem mem_ordInsert (le : α → α → Bool) (a : α) (l : List α) (x : α) :
    x ∈ ordInsert le a l ↔ x = a ∨ x ∈ l := by
  induction l with
  | nil => simp [ordInsert]
  | cons b t ih =>
    by_cases h : le a b = true
    · simp [ordInsert, h]
    · simp only [ordInsert, if_neg h, List.mem_cons, ih]
      tauto

theorem mem_stableSort (le : α → α → Bool) (l : List α) (x : α) :
    x ∈ stableSort le l ↔ x ∈ l := by
  induction l with
  | nil => simp [stableSort]
  | cons a t ih => simp [stableSort, mem_ordInsert, ih]

theorem length_ordInsert (le : α → α → Bool) (a : α) (l : List α) :
    (ordInsert le a l).length = l.length + 1 := by
  induction l with
  | nil => rfl
  | cons b t ih =>
    by_cases h : le a b = true <;> simp [ordInsert, h, ih]

theorem length_stableSort (le : α → α → Bool) (l : List α) :
    (stableSort le l).length = l.length := by
  induction l with
  | nil => rfl
  | cons a t ih => simp [stableSort, length_ordInsert, ih]

theorem pairwise_ordInsert (le : α → α → Bool)
    (htot : ∀ a b, le a b = true ∨ le b a = true)
    (htrans : ∀ a b c, le a b = true → le b c = true → le a c = true)
    (a : α) (l : List α) (h : l.Pairwise (fun x y => le x y = true)) :
    (ordInsert le a l).Pairwise (fun x y => le x y = true) := by
  induction l with
  | nil => simp [ordInsert]
  | cons b t ih =>
    obtain ⟨hb, ht⟩ := List.pairwise_cons.1 h
    by_cases hab : le a b = true
    · simp only [ordInsert, if_pos hab]
      refine List.pairwise_cons.2 ⟨?_, List.pairwise_cons.2 ⟨hb, ht⟩⟩
      intro y hy
      rcases List.mem_cons.1 hy with rfl | hyt
      · exact hab
      · exact htrans a b y hab (hb y hyt)
    · simp only [ordInsert, if_neg hab]
      refine List.pairwise_cons.2 ⟨?_, ih ht⟩
      intro y hy
      rcases (mem_ordInsert le a t y).1 hy with rfl | hyt
      · rcases htot y b with h1 | h2
        · exact absurd h1 hab
        · exact h2
      · exact hb y hyt

theorem pairwise_stableSort (le : α → α → Bool)
    (htot : ∀ a b, le a b = true ∨ le b a = true)
    (htrans : ∀ a b c, le a b = true → le b c = true → le a c = true)
    (l : List α) :
    (stableSort le l).Pairwise (fun x y => le x y = true) := by
  induction l with
  | nil => simp [stableSort]
  | cons a t ih => exact pairwise_ordInsert le htot htrans a _ ih

theorem head_stableSort_mem (le : α → α → Bool) {l : List α} {w : α}
    (hw : (stableSort le l).head? = some w) : w ∈ l := by
  have hmem : w ∈ stableSort le l := by
    cases hs : stableSort le l with
    | nil => rw [hs] at hw; simp at hw
    | cons x t =>
      rw [hs] at hw
      simp only [List.head?_cons, Option.some.injEq] at hw
      subst hw
      exact List.mem_cons_self _ _
  exact (mem_stableSort le l w).1 hmem

theorem head_stableSort_le (le : α → α → Bool)
    (htot : ∀ a b, le a b = true ∨ le b a = true)
    (htrans : ∀ a b c, le a b = true → le b c = true → le a c = true)
    {l : List α} {w : α} (hw : (stableSort le l).head? = some w) :
    ∀ c ∈ l, le w c = true := by
  intro c hc
  have hsorted := pairwise_stableSort le htot htrans l
  cases hs : stableSort le l with
  | nil => rw [hs] at hw; simp at hw
  | cons x t =>
    rw [hs] at hw
    simp only [List.head?_cons, Option.some.injEq] at hw
    subst hw
    rw [hs] at hsorted
    have hmem : c ∈ stableSort le l := (mem_stableSort le l c).2 hc
    rw [hs] at hmem
    rcases List.mem_cons.1 hmem with rfl | hct
    · rcases htot c c with h1 | h1 <;> exact h1
    · exact (List.pairwise_cons.1 hsorted).1 c hct

/-- Stability of the sort: the first element of the sorted list is the
*earliest* (by any strictly increasing index `p`) among the elements
with a minimal key. -/
theorem head_stableSort_first (le : α → α → Bool) (p : α → Nat) :
    ∀ (l : List α) (w : α), l.Pairwise (fun x y => p x < p y) →
      (stableSort le l).head? = some w →
      ∀ c ∈ l, le c w = true → p w ≤ p c := by
  intro l
  induction l with
  | nil => intro w _ hw; simp [stableSort] at hw
  | cons a t ih =>
    intro w hidx hw c hc hcw
    obtain ⟨hat, hidxt⟩ := List.pairwise_cons.1 hidx
    have hdef : stableSort le (a :: t) = ordInsert le a (stableSort le t) := rfl
    cases hs : stableSort le t with
    | nil =>
      rw [hdef, hs] at hw
      simp only [ordInsert, List.head?_cons, Option.some.injEq] at hw
      subst hw
      have ht : t = [] := by
        have hlen := length_stableSort le t
        rw [hs] at hlen
        exact List.length_eq_zero.1 hlen.symm
      subst ht
      rcases List.mem_cons.1 hc with rfl | hct
      · exact Nat.le_refl _
      · simp at hct
    | cons m ms =>
      rw [hdef, hs] at hw
      by_cases ham : le a m = true
      · simp only [ordInsert, if_pos ham, List.head?_cons, Option.some.injEq] at hw
        subst hw
        rcases List.mem_cons.1 hc with rfl | hct
        · exact Nat.le_refl _
        · exact Nat.le_of_lt (hat c hct)
      · simp only [ordInsert, if_neg ham, List.head?_cons, Option.some.injEq] at hw
        subst hw
        rcases List.mem_cons.1 hc with rfl | hct
        · exact absurd hcw ham
        · exact ih m hidxt (by rw [hs]; rfl) c hct hcw

/-- `List.find?` returns the head of the filtered list. -/
theorem find?_eq_head_filter (p : α → Bool) (l : List α) :
    l.find? p = (l.filter p).head? := by
  induction l with
  | nil => rfl
  | cons a t ih =>
    cases h : p a with
    | true =>
      simp only [List.find?_cons_of_pos _ h, List.filter_cons_of_pos h,
        List.head?_cons]
    | false =>
      have hne : ¬ p a = true := by simp [h]
      simp only [List.find?_cons_of_neg _ hne, List.filter_cons_of_neg hne, ih]

/-! ## Data model

Typed records mirroring the frames of `08_ingest_logft.py` (§3 of the
spec).  `Cand.idx` models the positional row index that
`pd.concat(..., ignore_index=True)` assigns in load order; it is the
index total order used for tie-breaking. -/

/-- A normalized candidate row (`_normalize_candidates` output). -/
structure Cand where
  idx : Nat
  Z : Int
  A : Int
  logft : ℚ
  mode : String
  br_pct : Option ℚ
  source : String
deriving DecidableEq

/-- A normalized override row (`_normalize_overrides` output). -/
structure OverrideRec where
  Z : Int
  A : Int
  logft : ℚ
  mode : String
  source : String
  note : String
deriving DecidableEq

/-- A row of the primary beta table. -/
structure PrimaryRow where
  Z : Int
  A : Int
  mode : String
  tau_s : ℚ
  Q_mev : ℚ
  logft : Option ℚ
deriving DecidableEq

/-- The audit `method` tag. -/
inductive Method where
  | override
  | candidate_highest_br
  | candidate_min_logft
  | missing
  | kept_existing
deriving DecidableEq

/-- Provenance dictionary returned by `choose_logft_for_row`. -/
structure Prov where
  method : Method
  source : String
  cand_mode : String
  br_pct_used : Option ℚ
  note : String
deriving DecidableEq

/-- One row of the audit output. -/
structure AuditRow where
  Z : Int
  A : Int
  logft : Option ℚ
  method : Method
  source : String
  beta_mode : String
  cand_mode : String
  br_pct_used : Option ℚ
  note : String
deriving DecidableEq

/-! ## Record Normalizer -/

/-- The column rename map of `_normalize_candidates` (lines 120-142):
case-insensitive, synonym-aware; unrecognized names are kept as-is. -/
def candCanonCol (c : String) : String :=
  let lc := pyLower (pyStrip c)
  if lc = "z" then "Z"
  else if lc = "a" then "A"
  else if lc = "logft" ∨ lc = "log_ft" ∨ lc = "log ft" then "logft"
  else if lc = "mode" ∨ lc = "decay_mode" ∨ lc = "decay" then "mode"
  else if lc = "br_pct" ∨ lc = "branch_pct" ∨ lc = "branching_pct" ∨
      lc = "branching_ratio_pct" then "br_pct"
  else if lc = "br" ∨ lc = "branch" ∨ lc = "branching" ∨
      lc = "branching_ratio" then "br"
  else if lc = "source" then "source"
  else if lc = "comment" then "comment"
  else c

/-- Schema requirement of `_normalize_candidates` (lines 144-147): after
renaming, the frame must contain `Z`, `A` and `logft`.  `cols` is the
column list of the frame being normalized — in `main` this is the
*concatenation* of all candidate source files. -/
def candSchemaOk (cols : List String) : Bool :=
  ["Z", "A", "logft"].all (fun r => (cols.map candCanonCol).contains r)

/-- The column rename map of `_normalize_overrides` (lines 189-206). -/
def ovrCanonCol (c : String) : String :=
  let lc := pyLower (pyStrip c)
  if lc = "z" then "Z"
  else if lc = "a" then "A"
  else if lc = "logft" ∨ lc = "log_ft" ∨ lc = "log ft" then "logft"
  else if lc = "mode" ∨ lc = "decay_mode" ∨ lc = "decay" then "mode"
  else if lc = "source" then "source"
  else if lc = "note" ∨ lc = "notes" ∨ lc = "comment" then "note"
  else c

/-- Schema requirement of `_normalize_overrides` (lines 208-210). -/
def ovrSchemaOk (cols : List String) : Bool :=
  ["Z", "A", "logft"].all (fun r => (cols.map ovrCanonCol).contains r)

/-- Branching-ratio normalization of `_normalize_candidates`
(lines 163-172).  `pctCol` is the numerically-parsed `br_pct` column
when that column exists, `brCol` likewise for `br`; `none` entries are
NaN after `to_numeric(..., errors="coerce")`.  When the `br_pct` column
is absent it is created as all-NaN; then, where `br_pct` is NaN and the
`br` column exists, it is filled per row with `br * 100`. -/
def brPctColumn (n : Nat) (pctCol : Option (List (Option ℚ)))
    (brCol : Option (List (Option ℚ))) : List (Option ℚ) :=
  let base : List (Option ℚ) :=
    match pctCol with
    | some v => v
    | none => List.replicate n none
  match brCol with
  | none => base
  | some brv =>
    (base.zip brv).map (fun pb =>
      match pb.1 with
      | some x => some x
      | none => pb.2.map (fun b => b * 100))

/-! ## Resolution Engine -/

/-- Embedding of `_mode_match_score` (lines 234-257). -/
def modeMatchScore (beta_mode cand_mode : String) : Nat :=
  let b := pyLower (pyStrip beta_mode)
  let c := pyLower (pyStrip cand_mode)
  if b = "" then 0
  else if pyIn b c then 2
  else if b = "ec" ∧ pyIn "ec" c then 1
  else if b = "beta+" ∧ (pyIn "beta+" c ∨ pyIn "ec" c) then 1
  else if b = "beta-" ∧ pyIn "beta-" c then 1
  else 0

/-- Boolean-mask selection `overrides[(Z==Z)&(A==A)]` (line 272). -/
def matchingOverrides (Z A : Int) (ovrs : List OverrideRec) : List OverrideRec :=
  ovrs.filter (fun r => decide (r.Z = Z) && decide (r.A = A))

/-- Boolean-mask selection `candidates[(Z==Z)&(A==A)]` (line 283). -/
def matchingCands (Z A : Int) (cands : List Cand) : List Cand :=
  cands.filter (fun r => decide (r.Z = Z) && decide (r.A = A))

def modeScoreOf (beta_mode : String) (c : Cand) : Nat :=
  modeMatchScore beta_mode c.mode

/-- `cands["mode_score"].max()` (line 294); scores are `Nat`s so the
fold base 0 agrees with the pandas max on a non-empty frame. -/
def maxModeScore (beta_mode : String) (l : List Cand) : Nat :=
  (l.map (modeScoreOf beta_mode)).foldr max 0

/-- Mode-score filtering step of `choose_logft_for_row` (lines 287-296):
keep the best-scoring candidates, unless the best score is 0. -/
def retainedCands (Z A : Int) (beta_mode : String) (cands : List Cand) :
    List Cand :=
  let ms := matchingCands Z A cands
  let best := maxModeScore beta_mode ms
  if 0 < best then ms.filter (fun c => decide (modeScoreOf beta_mode c = best))
  else ms

/-- Order on optional branching percentages with `none` as `-inf`
(the `fillna(-np.inf)` of line 302). -/
def optBrLt (x y : Option ℚ) : Bool :=
  match x, y with
  | none, none => false
  | none, some _ => true
  | some _, none => false
  | some a, some b => decide (a < b)

/-- The two-column sort key of line 303: branching percentage
descending (missing = `-inf`), then logft ascending.  `brKeyLe a b`
means `a` sorts no later than `b`. -/
def brKeyLe (a b : Cand) : Bool :=
  optBrLt b.br_pct a.br_pct ||
    (decide (a.br_pct = b.br_pct) && decide (a.logft ≤ b.logft))

/-- The single-column sort key of line 314: logft ascending. -/
def logftLe (a b : Cand) : Bool := decide (a.logft ≤ b.logft)

/-- Tie-break stage of `choose_logft_for_row` (lines 298-322): if any
retained candidate has a known branching percentage, sort by
(`br` desc, `logft` asc) — a two-column pandas sort, hence stable —
and take the first row; otherwise sort by `logft` ascending and take
the first row.  The fallback is a single-column pandas sort whose tie
order (default quicksort) is not guaranteed; `stableSort` stands in
for it, and only key-level facts, valid under any ordering by `logft`,
are proved about that branch. -/
def candTieBreak (R : List Cand) : Option (Cand × Method) :=
  if R.any (fun r => r.br_pct.isSome) then
    ((stableSort brKeyLe R).head?).map (fun w => (w, Method.candidate_highest_br))
  else
    ((stableSort logftLe R).head?).map (fun w => (w, Method.candidate_min_logft))

/-- Embedding of `choose_logft_for_row` (lines 260-322).  The formatted
`br_pct_used` string is modelled by the optional value itself (`none`
models the empty string written when the percentage is NaN). -/
def chooseLogftForRow (Z A : Int) (beta_mode : String)
    (candidates : List Cand) (overrides : List OverrideRec) :
    Option ℚ × Prov :=
  match matchingOverrides Z A overrides with
  | r :: _ => (some r.logft, ⟨Method.override, r.source, r.mode, none, r.note⟩)
  | [] =>
    match candTieBreak (retainedCands Z A beta_mode candidates) with
    | none => (none, ⟨Method.missing, "", "", none, ""⟩)
    | some (w, m) =>
      (some w.logft,
        ⟨m, w.source, w.mode,
          if m = Method.candidate_highest_br then w.br_pct else none, ""⟩)

/-! ## Merge & Audit Writer -/

/-- One iteration of the merge loop of `main` (lines 369-417); the
Python local `beta_mode = str(row.get("mode", "")).strip()` is written
out as `pyStrip row.mode`. -/
def mergeRow (force : Bool) (cands : List Cand) (ovrs : List OverrideRec)
    (row : PrimaryRow) : PrimaryRow × AuditRow :=
  if row.logft.isSome && !force then
    (row, ⟨row.Z, row.A, row.logft, Method.kept_existing, "",
      pyStrip row.mode, "", none, ""⟩)
  else
    match chooseLogftForRow row.Z row.A (pyStrip row.mode) cands ovrs with
    | (none, prov) =>
      (row, ⟨row.Z, row.A, none, prov.method, prov.source, pyStrip row.mode,
        prov.cand_mode, prov.br_pct_used, prov.note⟩)
    | (some v, prov) =>
      ({row with logft := some v},
        ⟨row.Z, row.A, some v, prov.method, prov.source, pyStrip row.mode,
          prov.cand_mode, prov.br_pct_used, prov.note⟩)

/-- The updated beta table produced by the merge loop.  Row iterations
are independent (the loop only writes the current row's `logft` cell),
so the loop is a map over rows. -/
def runTable (force : Bool) (cands : List Cand) (ovrs : List OverrideRec)
    (rows : List PrimaryRow) : List PrimaryRow :=
  rows.map (fun r => (mergeRow force cands ovrs r).1)

/-- The audit rows produced by the merge loop, in table row order
(before the final sort). -/
def runAudit (force : Bool) (cands : List Cand) (ovrs : List OverrideRec)
    (rows : List PrimaryRow) : List AuditRow :=
  rows.map (fun r => (mergeRow force cands ovrs r).2)

/-- Sort key of `audit.sort_values(["Z", "A"])` (line 425). -/
def auditLe (x y : AuditRow) : Bool :=
  decide (x.Z < y.Z) || (decide (x.Z = y.Z) && decide (x.A ≤ y.A))

/-! ## Run model of `main`

The CSV reading and numeric coercion of individual cells are abstracted:
a candidate source file is modelled by its path, its raw column names,
and the typed rows it contributes after coercion and `dropna` (rows the
claims quantify over).  `candidates_raw.empty` is modelled as "no files
were discovered" — the only emptiness the claims concern. -/

/-- One candidate source CSV under `--logft_dir`. -/
structure CandFile where
  path : String
  cols : List String
  recs : List Cand
deriving DecidableEq

/-- Ascending-path comparison used to model `sorted(files)` in
`_read_csvs` (line 96). -/
def fileLe (f g : CandFile) : Bool := !pathLt g.path f.path

/-- Reindexing of `pd.concat(dfs, ignore_index=True)` (line 104). -/
def reindexFrom (n : Nat) : List Cand → List Cand
  | [] => []
  | c :: l => {c with idx := n} :: reindexFrom (n + 1) l

/-- `_read_csvs` (lines 95-104): files in lexicographic path order,
rows concatenated in file order, reindexed from 0. -/
def loadCandidates (files : List CandFile) : List Cand :=
  reindexFrom 0 ((stableSort fileLe files).flatMap CandFile.recs)

/-- Column pool of the concatenated candidate frame (`pd.concat` takes
the union of the files' columns, filling missing ones with NaN). -/
def candPoolCols (files : List CandFile) : List String :=
  (stableSort fileLe files).flatMap CandFile.cols

/-- The inputs of one invocation of `main`. -/
structure Env where
  betaExists : Bool
  betaColsOk : Bool
  beta : List PrimaryRow
  candFiles : List CandFile
  ovrExists : Bool
  ovrCols : List String
  ovrRecs : List OverrideRec
  force : Bool
  requireComplete : Bool
deriving DecidableEq

/-- Observable outcome of `main`: `fatal` is an uncaught RuntimeError
(nothing written), `exit2` is `return 2` before any write, and
`written` carries the two persisted outputs together with the exit
code (0 or 3). -/
inductive RunOutcome where
  | fatal
  | exit2
  | written (table : List PrimaryRow) (audit : List AuditRow) (code : Nat)
deriving DecidableEq

/-- Control-flow model of `main` (lines 325-437), in the order the
checks occur in the code: beta table existence (line 335), beta
required columns (line 342), "no candidate sources and no overrides"
(line 353), candidate schema (via `_normalize_candidates`, line 358;
skipped when no candidate files), override schema (via
`_normalize_overrides`, line 362; skipped when the file is absent),
then the merge loop, the two writes, and the `--require_complete`
check (line 431). -/
def envOverrides (env : Env) : List OverrideRec :=
  if env.ovrExists then env.ovrRecs else []

def runModel (env : Env) : RunOutcome :=
  if !env.betaExists then .exit2
  else if !env.betaColsOk then .fatal
  else if env.candFiles.isEmpty && !env.ovrExists then .exit2
  else if !env.candFiles.isEmpty && !candSchemaOk (candPoolCols env.candFiles) then
    .fatal
  else if env.ovrExists && !ovrSchemaOk env.ovrCols then .fatal
  else
    RunOutcome.written
      (runTable env.force (loadCandidates env.candFiles) (envOverrides env)
        env.beta)
      (stableSort auditLe (runAudit env.force (loadCandidates env.candFiles)
        (envOverrides env) env.beta))
      (if env.requireComplete &&
          (runTable env.force (loadCandidates env.candFiles) (envOverrides env)
            env.beta).any (fun r => r.logft.isNone)
        then 3 else 0)

/-! ## Spec-worded definitions (for the refinement claims)

These two definitions follow the *spec's words* rather than the source;
they exist only to be compared with the source-derived definitions. -/

/-- The mode score as claim C4 words it: computed from the lower-cased
mode strings (the claim does not whitespace-strip them). -/
def specModeScore (beta_mode cand_mode : String) : Nat :=
  let b := pyLower beta_mode
  let c := pyLower cand_mode
  if b = "" then 0
  else if pyIn b c then 2
  else if b = "ec" ∧ pyIn "ec" c then 1
  else if b = "beta+" ∧ (pyIn "beta+" c ∨ pyIn "ec" c) then 1
  else if b = "beta-" ∧ pyIn "beta-" c then 1
  else 0

/-- The branching-ratio normalization as claim C7 words it: the
fractional column fills `br_pct` only when the percentage column has no
non-blank entry anywhere in the file ("an explicit percentage field,
even if blank for some rows, never loses to the fractional one once it
is set elsewhere in the file"). -/
def specBrPctColumn (n : Nat) (pctCol : Option (List (Option ℚ)))
    (brCol : Option (List (Option ℚ))) : List (Option ℚ) :=
  let base : List (Option ℚ) :=
    match pctCol with
    | some v => v
    | none => List.replicate n none
  let pctSetSomewhere : Bool :=
    match pctCol with
    | some v => v.any (fun x => x.isSome)
    | none => false
  if pctSetSomewhere then base
  else
    match brCol with
    | none => base
    | some brv =>
      (base.zip brv).map (fun pb =>
        match pb.1 with
        | some x => some x
        | none => pb.2.map (fun b => b * 100))

/-! ## Properties of the sort keys -/

theorem brKeyLe_eq_true_iff (a b : Cand) : brKeyLe a b = true ↔
    (optBrLt b.br_pct a.br_pct = true ∨
      (a.br_pct = b.br_pct ∧ a.logft ≤ b.logft)) := by
  simp [brKeyLe, Bool.or_eq_true, Bool.and_eq_true, decide_eq_true_eq]

theorem optBrLt_none_some (x : ℚ) : optBrLt none (some x) = true := rfl

theorem optBrLt_some_some (x y : ℚ) :
    optBrLt (some x) (some y) = decide (x < y) := rfl

theorem brKeyLe_total (a b : Cand) :
    brKeyLe a b = true ∨ brKeyLe b a = true := by
  rw [brKeyLe_eq_true_iff, brKeyLe_eq_true_iff]
  cases ha : a.br_pct with
  | none =>
    cases hb : b.br_pct with
    | none =>
      rcases le_total a.logft b.logft with h | h
      · exact Or.inl (Or.inr ⟨rfl, h⟩)
      · exact Or.inr (Or.inr ⟨rfl, h⟩)
    | some q => exact Or.inr (Or.inl (optBrLt_none_some q))
  | some p =>
    cases hb : b.br_pct with
    | none => exact Or.inl (Or.inl (optBrLt_none_some p))
    | some q =>
      rcases lt_trichotomy p q with h | h | h
      · refine Or.inr (Or.inl ?_)
        rw [optBrLt_some_some]
        exact decide_eq_true h
      · subst h
        rcases le_total a.logft b.logft with h | h
        · exact Or.inl (Or.inr ⟨rfl, h⟩)
        · exact Or.inr (Or.inr ⟨rfl, h⟩)
      · refine Or.inl (Or.inl ?_)
        rw [optBrLt_some_some]
        exact decide_eq_true h

theorem optBrLt_trans : ∀ {x y z : Option ℚ}, optBrLt x y = true →
    optBrLt y z = true → optBrLt x z = true := by
  intro x y z h1 h2
  cases x <;> cases y <;> cases z <;> simp [optBrLt] at h1 h2 ⊢
  exact lt_trans h1 h2

theorem brKeyLe_trans (a b c : Cand) (h1 : brKeyLe a b = true)
    (h2 : brKeyLe b c = true) : brKeyLe a c = true := by
  rw [brKeyLe_eq_true_iff] at h1 h2 ⊢
  rcases h1 with h1 | ⟨he1, hl1⟩
  · rcases h2 with h2 | ⟨he2, hl2⟩
    · exact Or.inl (optBrLt_trans h2 h1)
    · refine Or.inl ?_
      rw [he2] at h1
      exact h1
  · rcases h2 with h2 | ⟨he2, hl2⟩
    · refine Or.inl ?_
      rw [← he1] at h2
      exact h2
    · exact Or.inr ⟨he1.trans he2, hl1.trans hl2⟩

theorem logftLe_total (a b : Cand) :
    logftLe a b = true ∨ logftLe b a = true := by
  simp only [logftLe, decide_eq_true_eq]
  exact le_total _ _

theorem logftLe_trans (a b c : Cand) (h1 : logftLe a b = true)
    (h2 : logftLe b c = true) : logftLe a c = true := by
  simp only [logftLe, decide_eq_true_eq] at h1 h2 ⊢
  exact h1.trans h2

theorem auditLe_total (x y : AuditRow) :
    auditLe x y = true ∨ auditLe y x = true := by
  simp only [auditLe, Bool.or_eq_true, Bool.and_eq_true, decide_eq_true_eq]
  omega

theorem auditLe_trans (x y z : AuditRow) (h1 : auditLe x y = true)
    (h2 : auditLe y z = true) : auditLe x z = true := by
  simp only [auditLe, Bool.or_eq_true, Bool.and_eq_true, decide_eq_true_eq]
    at h1 h2 ⊢
  omega

/-! ## Properties of mode-score filtering -/

theorem maxModeScore_cons (m : String) (a : Cand) (t : List Cand) :
    maxModeScore m (a :: t) = max (modeScoreOf m a) (maxModeScore m t) := rfl

theorem le_maxModeScore (m : String) (l : List Cand) (c : Cand) (hc : c ∈ l) :
    modeScoreOf m c ≤ maxModeScore m l := by
  induction l with
  | nil => cases hc
  | cons a t ih =>
    rw [maxModeScore_cons]
    rcases List.mem_cons.1 hc with rfl | hct
    · exact Nat.le_max_left _ _
    · exact le_trans (ih hct) (Nat.le_max_right _ _)

theorem maxModeScore_eq_zero (m : String) (l : List Cand)
    (h : maxModeScore m l = 0) : ∀ c ∈ l, modeScoreOf m c = 0 := by
  intro c hc
  have := le_maxModeScore m l c hc
  omega

theorem maxModeScore_mem (m : String) (l : List Cand) (hne : l ≠ []) :
    ∃ c ∈ l, modeScoreOf m c = maxModeScore m l := by
  induction l with
  | nil => exact absurd rfl hne
  | cons a t ih =>
    rw [maxModeScore_cons]
    by_cases ht : t = []
    · subst ht
      exact ⟨a, List.mem_cons_self _ _, by simp [maxModeScore]⟩
    · obtain ⟨c, hcmem, hceq⟩ := ih ht
      rcases Nat.le_total (modeScoreOf m a) (maxModeScore m t) with h | h
      · exact ⟨c, List.mem_cons_of_mem a hcmem, by rw [hceq, Nat.max_eq_right h]⟩
      · exact ⟨a, List.mem_cons_self _ _, by rw [Nat.max_eq_left h]⟩

theorem retainedCands_eq_filter (Z A : Int) (m : String) (cands : List Cand) :
    retainedCands Z A m cands =
      (matchingCands Z A cands).filter
        (fun c => decide (modeScoreOf m c =
          maxModeScore m (matchingCands Z A cands))) := by
  unfold retainedCands
  by_cases h : 0 < maxModeScore m (matchingCands Z A cands)
  · rw [if_pos h]
  · have h0 : maxModeScore m (matchingCands Z A cands) = 0 := by omega
    rw [if_neg h, eq_comm, List.filter_eq_self]
    intro c hc
    simp only [decide_eq_true_eq, h0]
    exact maxModeScore_eq_zero m _ h0 c hc

theorem retainedCands_ne_nil (Z A : Int) (m : String) (cands : List Cand)
    (h : matchingCands Z A cands ≠ []) : retainedCands Z A m cands ≠ [] := by
  rw [retainedCands_eq_filter]
  obtain ⟨c, hc, hceq⟩ := maxModeScore_mem m _ h
  intro hnil
  have hmem : c ∈ (matchingCands Z A cands).filter
      (fun c => decide (modeScoreOf m c =
        maxModeScore m (matchingCands Z A cands))) :=
    List.mem_filter.2 ⟨hc, by simp [hceq]⟩
  rw [hnil] at hmem
  cases hmem

theorem retainedCands_score (Z A : Int) (m : String) (cands : List Cand)
    (c : Cand) (hc : c ∈ retainedCands Z A m cands) :
    modeScoreOf m c = maxModeScore m (matchingCands Z A cands) := by
  rw [retainedCands_eq_filter] at hc
  have := (List.mem_filter.1 hc).2
  simpa using this

/-! ## Properties of the index order -/

theorem mem_reindexFrom_ge (n : Nat) (l : List Cand) (c : Cand)
    (hc : c ∈ reindexFrom n l) : n ≤ c.idx := by
  induction l generalizing n with
  | nil => cases hc
  | cons a t ih =>
    rcases List.mem_cons.1 hc with rfl | hct
    · exact Nat.le_refl _
    · exact Nat.le_of_succ_le (ih (n + 1) hct)

theorem pairwise_reindexFrom (n : Nat) (l : List Cand) :
    (reindexFrom n l).Pairwise (fun a b => a.idx < b.idx) := by
  induction l generalizing n with
  | nil => exact List.Pairwise.nil
  | cons a t ih =>
    refine List.pairwise_cons.2 ⟨?_, ih (n + 1)⟩
    intro y hy
    have := mem_reindexFrom_ge (n + 1) t y hy
    show n < y.idx
    omega

theorem pairwise_idx_loadCandidates (files : List CandFile) :
    (loadCandidates files).Pairwise (fun a b => a.idx < b.idx) :=
  pairwise_reindexFrom 0 _

/-! ## Unfolding lemmas for `chooseLogftForRow` -/

theorem stableSort_eq_nil_iff (le : α → α → Bool) (l : List α) :
    stableSort le l = [] ↔ l = [] := by
  constructor
  · intro h
    have hlen := length_stableSort le l
    rw [h] at hlen
    exact List.length_eq_zero.1 hlen.symm
  · intro h
    subst h
    rfl

theorem head_stableSort_isSome (le : α → α → Bool) (l : List α) (h : l ≠ []) :
    ∃ w, (stableSort le l).head? = some w := by
  cases hs : stableSort le l with
  | nil => exact absurd ((stableSort_eq_nil_iff le l).1 hs) h
  | cons x t => exact ⟨x, rfl⟩

theorem chooseLogftForRow_ovr (Z A : Int) (m : String) (cands : List Cand)
    (ovrs : List OverrideRec) (r : OverrideRec) (t : List OverrideRec)
    (h : matchingOverrides Z A ovrs = r :: t) :
    chooseLogftForRow Z A m cands ovrs =
      (some r.logft, ⟨Method.override, r.source, r.mode, none, r.note⟩) := by
  unfold chooseLogftForRow
  rw [h]

theorem chooseLogftForRow_none (Z A : Int) (m : String) (cands : List Cand)
    (ovrs : List OverrideRec) (h : matchingOverrides Z A ovrs = [])
    (h2 : candTieBreak (retainedCands Z A m cands) = none) :
    chooseLogftForRow Z A m cands ovrs =
      (none, ⟨Method.missing, "", "", none, ""⟩) := by
  unfold chooseLogftForRow
  rw [h, h2]

theorem chooseLogftForRow_cand (Z A : Int) (m : String) (cands : List Cand)
    (ovrs : List OverrideRec) (w : Cand) (mth : Method)
    (h : matchingOverrides Z A ovrs = [])
    (h2 : candTieBreak (retainedCands Z A m cands) = some (w, mth)) :
    chooseLogftForRow Z A m cands ovrs =
      (some w.logft,
        ⟨mth, w.source, w.mode,
          if mth = Method.candidate_highest_br then w.br_pct else none, ""⟩) := by
  unfold chooseLogftForRow
  rw [h, h2]

/-! ## Permutation facts about the sort -/

theorem perm_ordInsert (le : α → α → Bool) (a : α) (l : List α) :
    (ordInsert le a l).Perm (a :: l) := by
  induction l with
  | nil => exact List.Perm.refl _
  | cons b t ih =>
    by_cases h : le a b = true
    · simp only [ordInsert, if_pos h]
      exact List.Perm.refl _
    · simp only [ordInsert, if_neg h]
      exact (ih.cons b).trans (List.Perm.swap a b t)

theorem perm_stableSort (le : α → α → Bool) (l : List α) :
    (stableSort le l).Perm l := by
  induction l with
  | nil => exact List.Perm.refl _
  | cons a t ih =>
    exact (perm_ordInsert le a (stableSort le t)).trans (ih.cons a)

theorem auditLe_eq_true_iff (x y : AuditRow) : auditLe x y = true ↔
    (x.Z < y.Z ∨ (x.Z = y.Z ∧ x.A ≤ y.A)) := by
  simp [auditLe, Bool.or_eq_true, Bool.and_eq_true, decide_eq_true_eq]

/-! ## Behaviour of a single merge-loop iteration -/

/-- Kept-existing branch of the loop: a non-empty `logft` without
`--force` short-circuits before the Resolution Engine. -/
theorem mergeRow_kept (cands : List Cand) (ovrs : List OverrideRec)
    (row : PrimaryRow) (h : row.logft.isSome = true) :
    mergeRow false cands ovrs row =
      (row, ⟨row.Z, row.A, row.logft, Method.kept_existing, "",
        pyStrip row.mode, "", none, ""⟩) := by
  unfold mergeRow
  simp [h]

theorem mergeRow_consult (force : Bool) (cands : List Cand)
    (ovrs : List OverrideRec) (row : PrimaryRow)
    (h : (row.logft.isSome && !force) = false) :
    mergeRow force cands ovrs row =
      match chooseLogftForRow row.Z row.A (pyStrip row.mode) cands ovrs with
      | (none, prov) =>
        (row, ⟨row.Z, row.A, none, prov.method, prov.source, pyStrip row.mode,
          prov.cand_mode, prov.br_pct_used, prov.note⟩)
      | (some v, prov) =>
        ({row with logft := some v},
          ⟨row.Z, row.A, some v, prov.method, prov.source, pyStrip row.mode,
            prov.cand_mode, prov.br_pct_used, prov.note⟩) := by
  unfold mergeRow
  rw [h]
  simp

/-- The table cell is only ever written with a value the Resolution
Engine returned: when it returns `none`, the row is untouched. -/
theorem mergeRow_fst_of_none (force : Bool) (cands : List Cand)
    (ovrs : List OverrideRec) (row : PrimaryRow)
    (h : (chooseLogftForRow row.Z row.A (pyStrip row.mode) cands ovrs).1 = none) :
    (mergeRow force cands ovrs row).1 = row := by
  by_cases hc : (row.logft.isSome && !force) = true
  · unfold mergeRow
    rw [if_pos hc]
  · rw [mergeRow_consult force cands ovrs row (by simpa using hc)]
    cases hch : chooseLogftForRow row.Z row.A (pyStrip row.mode) cands ovrs with
    | mk v prov =>
      cases v with
      | none => rfl
      | some q =>
        rw [hch] at h
        simp at h

/-- Applying the merge twice (no force) fixes the table row. -/
theorem mergeRow_fst_idem (cands : List Cand) (ovrs : List OverrideRec)
    (row : PrimaryRow) :
    (mergeRow false cands ovrs (mergeRow false cands ovrs row).1).1 =
      (mergeRow false cands ovrs row).1 := by
  by_cases h : row.logft.isSome = true
  · simp [mergeRow_kept cands ovrs row h]
  · rw [mergeRow_consult false cands ovrs row (by simp [h])]
    cases hch : chooseLogftForRow row.Z row.A (pyStrip row.mode) cands ovrs with
    | mk v prov =>
      cases v with
      | some q =>
        simp only []
        have : ({row with logft := some q} : PrimaryRow).logft.isSome = true := rfl
        simp [mergeRow_kept cands ovrs _ this]
      | none =>
        simp only []
        rw [mergeRow_consult false cands ovrs row (by simp [h]), hch]

/-! ## Facts about the empty primary mode -/

theorem modeMatchScore_empty (cm : String) : modeMatchScore "" cm = 0 := rfl

theorem maxModeScore_empty_mode (l : List Cand) : maxModeScore "" l = 0 := by
  induction l with
  | nil => rfl
  | cons a t ih =>
    rw [maxModeScore_cons, ih]
    simp [modeScoreOf, modeMatchScore_empty]

/-! ## Claims -/

/-- **C1.** For every primary record with identity key (Z, A) for which
at least one OverrideRecord matches, resolution returns the first
matching override in the index's load order with method `override`,
regardless of what CandidateRecords exist for that key: the result does
not depend on the candidate index at all. -/
theorem C1_override_precedence (Z A : Int) (beta_mode : String)
    (cands : List Cand) (ovrs : List OverrideRec) (r : OverrideRec)
    (hfirst : ovrs.find? (fun x => decide (x.Z = Z) && decide (x.A = A)) =
      some r) :
    chooseLogftForRow Z A beta_mode cands ovrs =
      (some r.logft, ⟨Method.override, r.source, r.mode, none, r.note⟩) ∧
    ∀ cands2 : List Cand,
      chooseLogftForRow Z A beta_mode cands2 ovrs =
        chooseLogftForRow Z A beta_mode cands ovrs := by
  have hhead : (matchingOverrides Z A ovrs).head? = some r := by
    unfold matchingOverrides
    rw [← find?_eq_head_filter]
    exact hfirst
  cases hm : matchingOverrides Z A ovrs with
  | nil =>
    rw [hm] at hhead
    simp at hhead
  | cons x t =>
    rw [hm] at hhead
    simp only [List.head?_cons, Option.some.injEq] at hhead
    subst hhead
    refine ⟨chooseLogftForRow_ovr Z A beta_mode cands ovrs _ t hm, ?_⟩
    intro cands2
    rw [chooseLogftForRow_ovr Z A beta_mode cands ovrs _ t hm,
      chooseLogftForRow_ovr Z A beta_mode cands2 ovrs _ t hm]

/-- A concrete override record for the C1 witness. -/
def ovrEx : OverrideRec := ⟨19, 44, 4, "beta-", "curated", "manual"⟩

theorem C1_witness :
    chooseLogftForRow 19 44 "beta-" [] [ovrEx] =
      (some (4 : ℚ), ⟨Method.override, "curated", "beta-", none, "manual"⟩) :=
  (C1_override_precedence 19 44 "beta-" [] [ovrEx] ovrEx (by decide)).1

/-- **C2.** A primary record's `logft` is never blanked and never
overwritten except with a value resolution returned: with a non-empty
`logft` and no `--force`, the merge records `kept_existing`, does not
consult the Resolution Engine (its output does not depend on the
candidate or override index), and echoes the value unchanged into the
table and the audit; and whenever resolution returns `none` (forced or
not) the row keeps exactly the `logft` it started with. -/
theorem C2_frame_effect (force : Bool) (cands : List Cand)
    (ovrs : List OverrideRec) (row : PrimaryRow) :
    (row.logft.isSome = true →
      mergeRow false cands ovrs row =
        (row, ⟨row.Z, row.A, row.logft, Method.kept_existing, "",
          pyStrip row.mode, "", none, ""⟩) ∧
      (∀ (cands2 : List Cand) (ovrs2 : List OverrideRec),
        mergeRow false cands2 ovrs2 row = mergeRow false cands ovrs row)) ∧
    ((chooseLogftForRow row.Z row.A (pyStrip row.mode) cands ovrs).1 = none →
      (mergeRow force cands ovrs row).1.logft = row.logft) := by
  constructor
  · intro h
    refine ⟨mergeRow_kept cands ovrs row h, ?_⟩
    intro cands2 ovrs2
    rw [mergeRow_kept cands ovrs row h, mergeRow_kept cands2 ovrs2 row h]
  · intro hnone
    rw [mergeRow_fst_of_none force cands ovrs row hnone]

/-- A concrete primary row (pre-resolved) for the C2 witness. -/
def rowKept : PrimaryRow := ⟨19, 44, "beta-", 1, 1, some 5⟩

theorem C2_witness :
    mergeRow false [] [] rowKept =
      (rowKept, ⟨19, 44, some 5, Method.kept_existing, "", "beta-", "",
        none, ""⟩) ∧
    (mergeRow true [] [] rowKept).1.logft = rowKept.logft := by
  have h := C2_frame_effect true [] [] rowKept
  constructor
  · have h1 := (h.1 (by decide)).1
    rw [h1]
    decide
  · exact h.2 (by decide)

/-- **C4 counterexample.** The claim describes the mode score over the
raw (merely lower-cased) mode strings, but `_mode_match_score` strips
surrounding whitespace first: for primary mode `"EC "` against
candidate mode `"ec"` the code scores 2 while the claim's description
scores 0. -/
theorem C4_counterexample :
    modeMatchScore "EC " "ec" = 2 ∧ specModeScore "EC " "ec" = 0 := by
  constructor <;> decide

/-- **C4 (amended).** The claim's description of the score is exact
once both mode strings are whitespace-stripped (the code strips them
internally, and every mode reaching the scorer is already stripped by
normalization); and resolution retains exactly the candidates achieving
the maximum score — when the maximum is 0 (in particular whenever the
primary mode is empty) this keeps all matching candidates. -/
theorem C4_mode_scoring (b c : String) (Z A : Int) (m : String)
    (cands : List Cand) :
    modeMatchScore b c = specModeScore (pyStrip b) (pyStrip c) ∧
    retainedCands Z A m cands =
      (matchingCands Z A cands).filter
        (fun x => decide (modeScoreOf m x =
          maxModeScore m (matchingCands Z A cands))) ∧
    retainedCands Z A "" cands = matchingCands Z A cands := by
  refine ⟨rfl, retainedCands_eq_filter Z A m cands, ?_⟩
  simp [retainedCands, maxModeScore_empty_mode]

/-- **C7 counterexample.** A source whose `br_pct` column is set on row
0 but blank on row 1, alongside a `br` column: the code fills row 1
from the fraction, while the claim requires the blank row to stay
missing because the percentage column is set elsewhere in the file. -/
theorem C7_counterexample :
    brPctColumn 2 (some [some 50, none]) (some [none, some 1]) ≠
      specBrPctColumn 2 (some [some 50, none]) (some [none, some 1]) := by
  decide

/-- `getElem?` of a zip, pointwise. -/
theorem getElem?_zip (l1 : List α) (l2 : List β) (i : Nat) :
    (l1.zip l2)[i]? = l1[i]?.bind (fun a => l2[i]?.map (fun b => (a, b))) := by
  induction l1 generalizing l2 i with
  | nil => simp
  | cons a t ih =>
    cases l2 with
    | nil => simp
    | cons b t2 =>
      cases i with
      | zero => simp
      | succ j => simpa using ih t2 j

/-- **C7 (amended).** The fractional column fills `branching_pct`
exactly at the rows where the parsed percentage value is missing —
including when the percentage column has non-blank entries elsewhere in
the file: row `i` of the normalized column is the parsed percentage if
present, else the parsed fraction times 100. -/
theorem C7_br_normalization (pct brv : List (Option ℚ)) (i : Nat)
    (p b : Option ℚ) (hp : pct[i]? = some p) (hb : brv[i]? = some b) :
    (brPctColumn pct.length (some pct) (some brv))[i]? =
      some (p.elim (b.map (fun q => q * 100)) some) := by
  unfold brPctColumn
  show ((pct.zip brv).map (fun pb =>
      match pb.1 with
      | some x => some x
      | none => pb.2.map (fun b => b * 100)))[i]? = _
  rw [List.getElem?_map, getElem?_zip, hp, hb]
  cases p <;> rfl

theorem C7_witness :
    (brPctColumn 2 (some [some 50, none]) (some [none, some 1]))[1]? =
      some (Option.elim none (Option.map (fun q => q * 100) (some (1 : ℚ))) some) :=
  C7_br_normalization [some 50, none] [none, some 1] 1 none (some 1)
    (by decide) (by decide)

/-- **C3.** At the tie-break stage (no override matches, at least one
candidate matches, after mode-score filtering): if any retained
candidate has a known branching percentage, the winner has a known
percentage (an unknown-percentage candidate is never chosen over a
known one) and beats every known-percentage candidate by percentage,
with exact percentage ties broken by smaller logft, under method
`candidate_highest_br`; if none has a known percentage, the winner has
the smallest logft among the retained candidates, under method
`candidate_min_logft`. -/
theorem C3_tie_break (Z A : Int) (m : String) (cands : List Cand)
    (ovrs : List OverrideRec) (hovr : matchingOverrides Z A ovrs = [])
    (hcand : matchingCands Z A cands ≠ []) :
    ((retainedCands Z A m cands).any (fun r => r.br_pct.isSome) = true →
      ∃ w, candTieBreak (retainedCands Z A m cands) =
          some (w, Method.candidate_highest_br) ∧
        chooseLogftForRow Z A m cands ovrs =
          (some w.logft,
            ⟨Method.candidate_highest_br, w.source, w.mode, w.br_pct, ""⟩) ∧
        w ∈ retainedCands Z A m cands ∧
        w.br_pct.isSome = true ∧
        ∀ c ∈ retainedCands Z A m cands, ∀ q : ℚ, c.br_pct = some q →
          ∃ p : ℚ, w.br_pct = some p ∧
            (q < p ∨ (q = p ∧ w.logft ≤ c.logft))) ∧
    ((retainedCands Z A m cands).any (fun r => r.br_pct.isSome) = false →
      ∃ w, candTieBreak (retainedCands Z A m cands) =
          some (w, Method.candidate_min_logft) ∧
        chooseLogftForRow Z A m cands ovrs =
          (some w.logft,
            ⟨Method.candidate_min_logft, w.source, w.mode, none, ""⟩) ∧
        w ∈ retainedCands Z A m cands ∧
        ∀ c ∈ retainedCands Z A m cands, w.logft ≤ c.logft) := by
  have hRne : retainedCands Z A m cands ≠ [] :=
    retainedCands_ne_nil Z A m cands hcand
  constructor
  · intro hbr
    obtain ⟨w, hw⟩ := head_stableSort_isSome brKeyLe _ hRne
    have htb : candTieBreak (retainedCands Z A m cands) =
        some (w, Method.candidate_highest_br) := by
      unfold candTieBreak
      rw [if_pos hbr, hw]
      rfl
    have hmemR := head_stableSort_mem brKeyLe hw
    have hle := head_stableSort_le brKeyLe brKeyLe_total brKeyLe_trans hw
    have hwsome : ∃ p, w.br_pct = some p := by
      obtain ⟨c0, hc0mem, hc0some⟩ := List.any_eq_true.1 hbr
      obtain ⟨q0, hq0⟩ := Option.isSome_iff_exists.1 hc0some
      cases hwp : w.br_pct with
      | some p => exact ⟨p, rfl⟩
      | none =>
        have h1 := hle c0 hc0mem
        rw [brKeyLe_eq_true_iff] at h1
        rcases h1 with h1 | ⟨he, _⟩
        · rw [hq0, hwp] at h1
          simp [optBrLt] at h1
        · rw [hwp, hq0] at he
          simp at he
    obtain ⟨p, hp⟩ := hwsome
    refine ⟨w, htb, ?_, hmemR, by rw [hp]; rfl, ?_⟩
    · rw [chooseLogftForRow_cand Z A m cands ovrs w
        Method.candidate_highest_br hovr htb]
      simp
    · intro c hc q hq
      refine ⟨p, hp, ?_⟩
      have h1 := hle c hc
      rw [brKeyLe_eq_true_iff] at h1
      rcases h1 with h1 | ⟨he, hlog⟩
      · rw [hq, hp, optBrLt_some_some] at h1
        exact Or.inl (of_decide_eq_true h1)
      · rw [hp, hq] at he
        injection he with hpq
        exact Or.inr ⟨hpq.symm, hlog⟩
  · intro hnobr
    obtain ⟨w, hw⟩ := head_stableSort_isSome logftLe _ hRne
    have htb : candTieBreak (retainedCands Z A m cands) =
        some (w, Method.candidate_min_logft) := by
      unfold candTieBreak
      rw [if_neg (by rw [hnobr]; exact Bool.false_ne_true), hw]
      rfl
    refine ⟨w, htb, ?_, head_stableSort_mem logftLe hw, ?_⟩
    · rw [chooseLogftForRow_cand Z A m cands ovrs w
        Method.candidate_min_logft hovr htb]
      simp
    · intro c hc
      have h1 := head_stableSort_le logftLe logftLe_total logftLe_trans hw c hc
      simpa [logftLe, decide_eq_true_eq] using h1

/-- Concrete candidates for the C3 witness (the spec's end-to-end
scenario: (19,44), modes beta- and EC, branching 80/20). -/
def cand1 : Cand := ⟨0, 19, 44, mkRat 53 10, "beta-", some 80, "fileA"⟩

def cand2 : Cand := ⟨1, 19, 44, mkRat 61 10, "EC", some 20, "fileA"⟩

theorem C3_witness :
    ∃ w, candTieBreak (retainedCands 19 44 "beta-" [cand1, cand2]) =
        some (w, Method.candidate_highest_br) ∧
      chooseLogftForRow 19 44 "beta-" [cand1, cand2] [] =
        (some w.logft,
          ⟨Method.candidate_highest_br, w.source, w.mode, w.br_pct, ""⟩) ∧
      w ∈ retainedCands 19 44 "beta-" [cand1, cand2] ∧
      w.br_pct.isSome = true ∧
      ∀ c ∈ retainedCands 19 44 "beta-" [cand1, cand2], ∀ q : ℚ,
        c.br_pct = some q →
        ∃ p : ℚ, w.br_pct = some p ∧
          (q < p ∨ (q = p ∧ w.logft ≤ c.logft)) :=
  (C3_tie_break 19 44 "beta-" [cand1, cand2] [] rfl (by decide)).1 (by decide)

/-- **C6.** With `--force` unset, running the engine a second time on
the first run's output table, with the same candidate and override
sources, yields an identical table; and on that second run every row
whose `logft` is already set is audited as `kept_existing`. -/
theorem C6_idempotent (cands : List Cand) (ovrs : List OverrideRec)
    (rows : List PrimaryRow) :
    runTable false cands ovrs (runTable false cands ovrs rows) =
      runTable false cands ovrs rows ∧
    ∀ r ∈ runTable false cands ovrs rows, r.logft.isSome = true →
      (mergeRow false cands ovrs r).2.method = Method.kept_existing := by
  constructor
  · unfold runTable
    rw [List.map_map]
    exact List.map_congr_left (fun r _ => mergeRow_fst_idem cands ovrs r)
  · intro r _ hsome
    rw [mergeRow_kept cands ovrs r hsome]

/-- A pre-resolved primary row for the C6 witness. -/
def rowB : PrimaryRow := ⟨20, 45, "beta-", 1, 1, some 7⟩

theorem C6_witness :
    (mergeRow false [] [] rowB).2.method = Method.kept_existing :=
  (C6_idempotent [] [] [rowB]).2 rowB (by decide) (by decide)

/-- With all input gates passed, `main` reaches the write phase; the
exit code is 3 exactly when completeness was required and a row is left
unresolved, else 0. -/
theorem runModel_written (env : Env) (h1 : env.betaExists = true)
    (h2 : env.betaColsOk = true)
    (h3 : ¬(env.candFiles.isEmpty = true ∧ env.ovrExists = false))
    (h4 : env.candFiles ≠ [] →
      candSchemaOk (candPoolCols env.candFiles) = true)
    (h5 : env.ovrExists = true → ovrSchemaOk env.ovrCols = true) :
    runModel env = RunOutcome.written
      (runTable env.force (loadCandidates env.candFiles) (envOverrides env)
        env.beta)
      (stableSort auditLe (runAudit env.force (loadCandidates env.candFiles)
        (envOverrides env) env.beta))
      (if env.requireComplete &&
          (runTable env.force (loadCandidates env.candFiles) (envOverrides env)
            env.beta).any (fun r => r.logft.isNone)
        then 3 else 0) := by
  have hg3 : (env.candFiles.isEmpty && !env.ovrExists) = false := by
    cases hie : env.candFiles.isEmpty
    · simp
    · cases hov : env.ovrExists
      · exact absurd ⟨hie, hov⟩ h3
      · simp [hov]
  have hg4 : (!env.candFiles.isEmpty &&
      !candSchemaOk (candPoolCols env.candFiles)) = false := by
    by_cases hf : env.candFiles = []
    · simp [hf]
    · simp [h4 hf]
  have hg5 : (env.ovrExists && !ovrSchemaOk env.ovrCols) = false := by
    cases hov : env.ovrExists
    · simp
    · simp [h5 hov]
  unfold runModel
  simp [h1, h2, hg3, hg4, hg5]

/-- **C8.** Exit codes of a run: 2 when the primary table file is
missing, or (table present and well-formed) when no candidate CSVs
exist and no overrides file is present; 3 when `--require_complete` is
set and rows remain unresolved after the pass — the updated table and
the audit having been written (the outcome carries both outputs); and
0 on success even when some rows remain unresolved. -/
theorem C8_exit_codes (env : Env) :
    (env.betaExists = false → runModel env = RunOutcome.exit2) ∧
    (env.betaExists = true → env.betaColsOk = true → env.candFiles = [] →
      env.ovrExists = false → runModel env = RunOutcome.exit2) ∧
    (env.betaExists = true → env.betaColsOk = true →
      ¬(env.candFiles.isEmpty = true ∧ env.ovrExists = false) →
      (env.candFiles ≠ [] →
        candSchemaOk (candPoolCols env.candFiles) = true) →
      (env.ovrExists = true → ovrSchemaOk env.ovrCols = true) →
      env.requireComplete = false →
      runModel env = RunOutcome.written
        (runTable env.force (loadCandidates env.candFiles) (envOverrides env)
          env.beta)
        (stableSort auditLe (runAudit env.force (loadCandidates env.candFiles)
          (envOverrides env) env.beta)) 0) ∧
    (env.betaExists = true → env.betaColsOk = true →
      ¬(env.candFiles.isEmpty = true ∧ env.ovrExists = false) →
      (env.candFiles ≠ [] →
        candSchemaOk (candPoolCols env.candFiles) = true) →
      (env.ovrExists = true → ovrSchemaOk env.ovrCols = true) →
      env.requireComplete = true →
      (runTable env.force (loadCandidates env.candFiles) (envOverrides env)
        env.beta).any (fun r => r.logft.isNone) = true →
      runModel env = RunOutcome.written
        (runTable env.force (loadCandidates env.candFiles) (envOverrides env)
          env.beta)
        (stableSort auditLe (runAudit env.force (loadCandidates env.candFiles)
          (envOverrides env) env.beta)) 3) := by
  refine ⟨?_, ?_, ?_, ?_⟩
  · intro h
    unfold runModel
    simp [h]
  · intro h1 h2 h3 h4
    unfold runModel
    simp [h1, h2, h3, h4]
  · intro h1 h2 h3 h4 h5 h6
    rw [runModel_written env h1 h2 h3 h4 h5]
    simp [h6]
  · intro h1 h2 h3 h4 h5 h6 h7
    rw [runModel_written env h1 h2 h3 h4 h5]
    simp [h6, h7]

/-- A candidate row, a primary row it does not cover, a candidate file,
and four run environments for the C8 witness. -/
def candB : Cand := ⟨55, 19, 44, 5, "beta-", none, "src"⟩

def rowC : PrimaryRow := ⟨1, 2, "beta-", 1, 1, none⟩

def fileB : CandFile := ⟨"b.csv", ["Z", "A", "logft"], [candB]⟩

def envA : Env := ⟨false, true, [], [], false, [], [], false, false⟩

def envB : Env := ⟨true, true, [rowC], [], false, [], [], false, false⟩

def envC : Env := ⟨true, true, [rowC], [fileB], false, [], [], false, false⟩

def envD : Env := ⟨true, true, [rowC], [fileB], false, [], [], false, true⟩

theorem C8_witness :
    runModel envA = RunOutcome.exit2 ∧
    runModel envB = RunOutcome.exit2 ∧
    (∃ t a, runModel envC = RunOutcome.written t a 0) ∧
    (∃ t a, runModel envD = RunOutcome.written t a 3) :=
  ⟨(C8_exit_codes envA).1 rfl,
    (C8_exit_codes envB).2.1 rfl rfl rfl rfl,
    ⟨_, _, (C8_exit_codes envC).2.2.1 rfl rfl (by decide) (by decide)
      (by decide) rfl⟩,
    ⟨_, _, (C8_exit_codes envD).2.2.2 rfl rfl (by decide) (by decide)
      (by decide) rfl (by decide)⟩⟩

/-- Candidate files for the C9 counterexample: the second file lacks a
`logft` column. -/
def fileGood : CandFile := ⟨"a.csv", ["Z", "A", "logft"], []⟩

def fileBad : CandFile := ⟨"b.csv", ["Z", "A"], []⟩

def env9 : Env := ⟨true, true, [], [fileGood, fileBad], false, [], [], false,
  false⟩

/-- **C9 counterexample.** The claim demands a schema failure whenever
some candidate source lacks Z, A or logft after mapping; but the code
normalizes the *concatenated* frame, whose column union here contains
the trio, so the run completes and writes its outputs. -/
theorem C9_counterexample :
    runModel env9 = RunOutcome.written [] [] 0 := by decide

/-- **C9 (amended).** The schema check applies to the *combined*
candidate pool: with the primary table present and well-formed, if
candidate files exist whose mapped column union lacks Z, A or logft, or
if the overrides file is present with Z, A or logft unmappable, the run
aborts with the schema error — `fatal` carries no outputs, so nothing
has been written. -/
theorem C9_schema_error (env : Env) (h1 : env.betaExists = true)
    (h2 : env.betaColsOk = true) :
    (env.candFiles ≠ [] →
      candSchemaOk (candPoolCols env.candFiles) = false →
      runModel env = RunOutcome.fatal) ∧
    ((env.candFiles ≠ [] →
        candSchemaOk (candPoolCols env.candFiles) = true) →
      env.ovrExists = true → ovrSchemaOk env.ovrCols = false →
      runModel env = RunOutcome.fatal) := by
  constructor
  · intro h3 h4
    have hie : env.candFiles.isEmpty = false := by
      cases hf : env.candFiles with
      | nil => exact absurd hf h3
      | cons f t => rfl
    unfold runModel
    simp [h1, h2, hie, h4]
  · intro h4 h5 h6
    have hg3 : (env.candFiles.isEmpty && !env.ovrExists) = false := by
      cases hie : env.candFiles.isEmpty
      · simp
      · simp [h5]
    have hg4 : (!env.candFiles.isEmpty &&
        !candSchemaOk (candPoolCols env.candFiles)) = false := by
      by_cases hf : env.candFiles = []
      · simp [hf]
      · simp [h4 hf]
    unfold runModel
    simp [h1, h2, hg3, hg4, h5, h6]

def env9b : Env := ⟨true, true, [], [fileBad], false, [], [], false, false⟩

theorem C9_witness : runModel env9b = RunOutcome.fatal :=
  (C9_schema_error env9b rfl rfl).1 (by decide) (by decide)

/-- **C10.** Whenever `main` writes its outputs, the audit file is the
per-row audit list sorted by Z ascending then A ascending: its rows are
pairwise non-decreasing in the (Z, A) lexicographic order, and they are
a permutation of the per-row audits (so in general the audit's order
differs from the primary table's row order). -/
theorem C10_audit_sorted (env : Env) (t : List PrimaryRow)
    (a : List AuditRow) (code : Nat)
    (h : runModel env = RunOutcome.written t a code) :
    a.Pairwise (fun x y => x.Z < y.Z ∨ (x.Z = y.Z ∧ x.A ≤ y.A)) ∧
    a.Perm (runAudit env.force (loadCandidates env.candFiles)
      (envOverrides env) env.beta) := by
  have ha : a = stableSort auditLe (runAudit env.force
      (loadCandidates env.candFiles) (envOverrides env) env.beta) := by
    unfold runModel at h
    split_ifs at h
    all_goals
      first
      | (injection h with e1 e2 e3; exact e2.symm)
      | injection h
  subst ha
  constructor
  · exact (pairwise_stableSort auditLe auditLe_total auditLe_trans _).imp
      (fun hxy => (auditLe_eq_true_iff _ _).1 hxy)
  · exact perm_stableSort auditLe _

/-- The audit row produced for `rowC` in `envC`, for the C10 witness. -/
def auditRowC : AuditRow := ⟨1, 2, none, Method.missing, "", "beta-", "",
  none, ""⟩

theorem C10_witness :
    ([auditRowC] : List AuditRow).Pairwise
      (fun x y => x.Z < y.Z ∨ (x.Z = y.Z ∧ x.A ≤ y.A)) ∧
    ([auditRowC] : List AuditRow).Perm
      (runAudit false (loadCandidates [fileB]) (envOverrides envC) [rowC]) :=
  C10_audit_sorted envC [rowC] [auditRowC] 0 (by decide)
